import Mathlib

/-!
Shallow embedding of `src/sage/categories/modules.py`: the category node
`Modules(R)`, its declared super-categories, the Hom/End category variants
with their extra-super-category hooks, the zero morphism of a module
Hom-space, the element-level multiplication dispatch, and the memoization
(cached-method / closure cache) semantics these rely on.

Base rings are opaque, identity-comparable handles: the whole development is
parameterized by a type `ρ` of ring handles with decidable equality.
-/

set_option autoImplicit false

/-- A category node: an immutable, parameterized, identity-comparable
description of a structural axiom.  The constructors are the node kinds
that appear in `modules.py` and in its documented super-category chain
(`Modules(Integers(9)).all_super_categories()` in the module docstring):
`Modules`, `Bimodules`, `LeftModules`, `RightModules`, the commutative
additive chain down to `Sets` and `Objects`, plus the `Algebras` node
returned by `EndCategory.extra_super_categories` and the Hom/End category
variants of `Modules` themselves. -/
inductive CategoryNode (ρ : Type) where
  | Modules (R : ρ)
  | Bimodules (L R : ρ)
  | LeftModules (R : ρ)
  | RightModules (R : ρ)
  | CommutativeAdditiveGroups
  | CommutativeAdditiveMonoids
  | CommutativeAdditiveSemigroups
  | Sets
  | Objects
  | Algebras (R : ρ)
  | HomCategoryOfModules (R : ρ)
  | EndCategoryOfModules (R : ρ)
  deriving DecidableEq

/-- The declared super-categories of `Modules(R)`, from
`Modules.super_categories` (modules.py lines 66-75):
`R = self.base_ring(); return [Bimodules(R,R)]`. -/
def Modules.super_categories {ρ : Type} (R : ρ) : List (CategoryNode ρ) :=
  [CategoryNode.Bimodules R R]

/-- The extra-super-category hook of the Hom-category of `Modules(R)`, from
`Modules.HomCategory.extra_super_categories` (modules.py lines 118-125):
`return [Modules(self.base_category.base_ring())]`; the base category of the
hom node of `Modules(R)` is `Modules(R)` itself, whose base ring is `R`. -/
def HomCategory.extra_super_categories {ρ : Type} (R : ρ) : List (CategoryNode ρ) :=
  [CategoryNode.Modules R]

/-- The extra-super-category hook of the End-category of `Modules(R)`, from
`Modules.EndCategory.extra_super_categories` (modules.py lines 153-161):
`return [Algebras(self.base_category.base_ring())]`. -/
def EndCategory.extra_super_categories {ρ : Type} (R : ρ) : List (CategoryNode ρ) :=
  [CategoryNode.Algebras R]

/-- Declared (static) direct super-categories of every node kind.  The
`Modules` case is from the source (`Modules.super_categories`).  Modelled
from the spec: the remaining kinds are declared outside this file; their
edges follow the documented chain
`Modules -> Bimodules -> {LeftModules, RightModules} ->
CommutativeAdditiveGroups -> ... -> Sets -> Objects` given in the module
docstring (modules.py lines 36-45) and spec section 8 (end-to-end example).
Hom/End nodes declare nothing statically (their contribution comes from the
extra-super-category hook), and `Algebras` is out of scope (its own
super-categories are never specified), so it declares nothing here. -/
def declared_super_categories {ρ : Type} : CategoryNode ρ → List (CategoryNode ρ)
  | .Modules R => Modules.super_categories R
  | .Bimodules L R => [.LeftModules L, .RightModules R]
  | .LeftModules _ => [.CommutativeAdditiveGroups]
  | .RightModules _ => [.CommutativeAdditiveGroups]
  | .CommutativeAdditiveGroups => [.CommutativeAdditiveMonoids]
  | .CommutativeAdditiveMonoids => [.CommutativeAdditiveSemigroups]
  | .CommutativeAdditiveSemigroups => [.Sets]
  | .Sets => [.Objects]
  | .Objects => []
  | .Algebras _ => []
  | .HomCategoryOfModules _ => []
  | .EndCategoryOfModules _ => []

/-- The extra-super-category hook, dispatched over the node kind.  The
Hom/End cases are the hooks defined in the source; every other kind has no
hook (modelled from the spec, section 3: the hook is "available only on
specialized node kinds such as Hom/End variants"). -/
def extra_super_categories {ρ : Type} : CategoryNode ρ → List (CategoryNode ρ)
  | .HomCategoryOfModules R => HomCategory.extra_super_categories R
  | .EndCategoryOfModules R => EndCategory.extra_super_categories R
  | _ => []

/-- Modelled from the spec (section 4.3, `direct_super_categories`): the
declared super-categories followed by the extra-super-category hook's
contribution, appended after the declared ones. -/
def direct_super_categories {ρ : Type} (c : CategoryNode ρ) : List (CategoryNode ρ) :=
  declared_super_categories c ++ extra_super_categories c

/-- A rank strictly decreasing along every direct super-category edge; it
witnesses that the hierarchy is acyclic and bounds the recursion depth of
the transitive closure. -/
def rank {ρ : Type} : CategoryNode ρ → Nat
  | .Objects => 0
  | .Sets => 1
  | .CommutativeAdditiveSemigroups => 2
  | .CommutativeAdditiveMonoids => 3
  | .CommutativeAdditiveGroups => 4
  | .LeftModules _ => 5
  | .RightModules _ => 5
  | .Bimodules _ _ => 6
  | .Modules _ => 7
  | .Algebras _ => 8
  | .HomCategoryOfModules _ => 9
  | .EndCategoryOfModules _ => 9

/-- First-occurrence-wins deduplication: `dedupAux seen l` drops from `l`
every element already in `seen` or seen earlier in `l`. -/
def dedupAux {α : Type} [DecidableEq α] : List α → List α → List α
  | _, [] => []
  | seen, x :: xs => if x ∈ seen then dedupAux seen xs else x :: dedupAux (x :: seen) xs

/-- Modelled from the spec (section 3, transitive closure): the node itself,
then its direct super-categories in declared order, then recursively their
closures, before deduplication.  The fuel argument only bounds the recursion
depth; `rank` decreases strictly along every edge, so fuel `rank c` is
exact (fuel reaches 0 only at `Objects`, which has no super-categories). -/
def allSuperAux {ρ : Type} [DecidableEq ρ] : Nat → CategoryNode ρ → List (CategoryNode ρ)
  | 0, c => [c]
  | n + 1, c =>
      c :: (direct_super_categories c ++ (direct_super_categories c).flatMap (allSuperAux n))

/-- Modelled from the spec (section 3): the transitive closure of a node,
deduplicated by identity on first occurrence. -/
def all_super_categories {ρ : Type} [DecidableEq ρ] (c : CategoryNode ρ) : List (CategoryNode ρ) :=
  dedupAux [] (allSuperAux (rank c) c)

/-! Element-level generic operator dispatch (modules.py lines 80-110). -/

/-- The operation symbol handed to the binary-operation resolver; the source
passes `operator.mul`. -/
inductive OpSymbol where
  | mul
  deriving DecidableEq

/-- Failure of the external binary-operation resolver: no common structure
exists for the two operands (spec section 7 taxonomy). -/
inductive CoercionError where
  | NoCommonStructure
  deriving DecidableEq

/-- The external binary-operation resolver (the coercion model's `bin_op`):
a black box taking both operands and the operation symbol, returning either
a result or `NoCommonStructure`.  The element methods are parameterized by
it, never implementing resolution themselves. -/
abbrev BinOpResolver (α : Type) := α → α → OpSymbol → Except CoercionError α

/-- From `Modules.ElementMethods.__mul__(left, right)` (modules.py lines
82-95): `return get_coercion_model().bin_op(left, right, operator.mul)`. -/
def ElementMethods.mul {α : Type} (bin_op : BinOpResolver α) (left right : α) :
    Except CoercionError α :=
  bin_op left right OpSymbol.mul

/-- From `Modules.ElementMethods.__rmul__(right, left)` (modules.py lines
97-110): the first parameter (the receiver) is named `right`, the reflected
operand is named `left`, and the body is
`return get_coercion_model().bin_op(left, right, operator.mul)`. -/
def ElementMethods.rmul {α : Type} (bin_op : BinOpResolver α) (right left : α) :
    Except CoercionError α :=
  bin_op left right OpSymbol.mul

/-! Hom-spaces of modules and their zero morphism (modules.py lines 127-146). -/

/-- A Hom-space of modules `Hom(E, F)`: for the zero morphism only the
domain carrier, the codomain carrier and the codomain's neutral element
(`self.codomain().zero()`) are consulted.  Morphisms of the space are
modelled as functions from the domain to the codomain; the parent's
call `self(function)` wrapping a function into a morphism is the identity
in this model. -/
structure ModuleHomspace where
  Dom : Type
  Cod : Type
  codomain_zero : Cod

/-- From `Modules.HomCategory.ParentMethods.zero` (modules.py lines
128-146): `return self(lambda x: self.codomain().zero())`, the morphism
sending every domain element to the codomain's neutral element. -/
def ModuleHomspace.zero (H : ModuleHomspace) : H.Dom → H.Cod :=
  fun _x => H.codomain_zero

/-- Modelled from the spec: the `@cached_method` decorator on `zero`
(its implementation lives in `sage.misc.cachefunc`, outside this file).
Per-instance cache state is an `Option`: a hit returns the stored morphism
unchanged, a miss computes `H.zero`, stores it and returns it. -/
def zero_cached (H : ModuleHomspace) :
    Option (H.Dom → H.Cod) → (H.Dom → H.Cod) × Option (H.Dom → H.Cod)
  | some v => (v, some v)
  | none => (H.zero, some H.zero)

/-- The cache state of a Hom-space after `n` calls to the cached `zero`,
starting from a fresh (empty) cache. -/
def zero_call_state (H : ModuleHomspace) : Nat → Option (H.Dom → H.Cod)
  | 0 => none
  | n + 1 => (zero_cached H (zero_call_state H n)).2

/-- The morphism observed by the `(n+1)`-st call to the cached `zero` on a
Hom-space whose cache was fresh before call number one. -/
def zero_nth_result (H : ModuleHomspace) (n : Nat) : H.Dom → H.Cod :=
  (zero_cached H (zero_call_state H n)).1

/-! The closure cache (spec sections 4.2 and 4.3; the `@cached_method`
decorator on `Modules.super_categories`, modules.py line 66). -/

/-- Modelled from the spec (section 4.2): the process-wide closure cache,
keyed by node identity, together with a counter of how many times the
underlying computation has been invoked. -/
structure ClosureCache (ρ : Type) where
  entries : List (CategoryNode ρ × List (CategoryNode ρ))
  computations : Nat

/-- Lookup of a node's identity key among the cache entries. -/
def lookupEntry {ρ : Type} [DecidableEq ρ] :
    List (CategoryNode ρ × List (CategoryNode ρ)) → CategoryNode ρ →
      Option (List (CategoryNode ρ))
  | [], _ => none
  | (k, v) :: rest, c => if k = c then some v else lookupEntry rest c

/-- The node identities currently cached. -/
def cachedKeys {ρ : Type} (st : ClosureCache ρ) : List (CategoryNode ρ) :=
  st.entries.map Prod.fst

/-- Modelled from the spec (section 4.2, `get_or_compute`): return the
memoized result when the node's identity is cached; otherwise invoke the
computation, store the result under the node's identity, bump the
computation counter and return it. -/
def get_or_compute {ρ : Type} [DecidableEq ρ]
    (f : CategoryNode ρ → List (CategoryNode ρ)) (st : ClosureCache ρ)
    (c : CategoryNode ρ) : List (CategoryNode ρ) × ClosureCache ρ :=
  match lookupEntry st.entries c with
  | some v => (v, st)
  | none => (f c, ⟨(c, f c) :: st.entries, st.computations + 1⟩)

/-- A sequence of queries against the cache, threading the state. -/
def processQueries {ρ : Type} [DecidableEq ρ]
    (f : CategoryNode ρ → List (CategoryNode ρ)) :
    List (CategoryNode ρ) → ClosureCache ρ → ClosureCache ρ
  | [], st => st
  | c :: qs, st => processQueries f qs (get_or_compute f st c).2

/-- The empty cache: no entries, no computations performed. -/
def emptyCache (ρ : Type) : ClosureCache ρ := ⟨[], 0⟩

/-- A cache is well formed for computation `f` when every stored value is
the value `f` computes for its key. -/
def WellFormedCache {ρ : Type} [DecidableEq ρ]
    (f : CategoryNode ρ → List (CategoryNode ρ)) (st : ClosureCache ρ) : Prop :=
  ∀ c v, lookupEntry st.entries c = some v → v = f c

/-! Helper lemmas. -/

/-- Every direct super-category edge strictly decreases `rank`: the declared
hierarchy is acyclic. -/
theorem rank_lt_of_mem_direct {ρ : Type} {s c : CategoryNode ρ}
    (h : s ∈ direct_super_categories c) : rank s < rank c := by
  cases c <;>
    simp only [direct_super_categories, declared_super_categories,
      extra_super_categories, Modules.super_categories,
      HomCategory.extra_super_categories, EndCategory.extra_super_categories,
      List.append_nil, List.nil_append, List.mem_cons, List.mem_singleton,
      List.not_mem_nil, or_false] at h <;>
    first
      | exact h.elim
      | (obtain rfl := h; simp [rank])
      | (obtain rfl | rfl := h <;> simp [rank])

theorem dedupAux_nil {α : Type} [DecidableEq α] (seen : List α) :
    dedupAux seen [] = [] := rfl

theorem dedupAux_cons_mem {α : Type} [DecidableEq α] {seen : List α} {x : α}
    (h : x ∈ seen) (xs : List α) :
    dedupAux seen (x :: xs) = dedupAux seen xs := by
  simp [dedupAux, h]

theorem dedupAux_cons_not_mem {α : Type} [DecidableEq α] {seen : List α} {x : α}
    (h : x ∉ seen) (xs : List α) :
    dedupAux seen (x :: xs) = x :: dedupAux (x :: seen) xs := by
  simp [dedupAux, h]

theorem lookupEntry_eq_none_iff {ρ : Type} [DecidableEq ρ]
    (l : List (CategoryNode ρ × List (CategoryNode ρ))) (c : CategoryNode ρ) :
    lookupEntry l c = none ↔ c ∉ l.map Prod.fst := by
  induction l with
  | nil => simp [lookupEntry]
  | cons p rest ih =>
      obtain ⟨k, v⟩ := p
      by_cases h : k = c
      · subst h; simp [lookupEntry]
      · simp only [lookupEntry, if_neg h, ih, List.map_cons, List.mem_cons, not_or]
        exact ⟨fun hnot => ⟨fun hc => h hc.symm, hnot⟩, fun hp => hp.2⟩

theorem emptyCache_wf {ρ : Type} [DecidableEq ρ]
    (f : CategoryNode ρ → List (CategoryNode ρ)) :
    WellFormedCache f (emptyCache ρ) := by
  intro c v h
  simp [emptyCache, lookupEntry] at h

theorem get_or_compute_fst {ρ : Type} [DecidableEq ρ]
    {f : CategoryNode ρ → List (CategoryNode ρ)} {st : ClosureCache ρ}
    (hwf : WellFormedCache f st) (c : CategoryNode ρ) :
    (get_or_compute f st c).1 = f c := by
  unfold get_or_compute
  split
  next v hl => exact hwf _ _ hl
  next => rfl

theorem get_or_compute_wf {ρ : Type} [DecidableEq ρ]
    {f : CategoryNode ρ → List (CategoryNode ρ)} {st : ClosureCache ρ}
    (hwf : WellFormedCache f st) (c : CategoryNode ρ) :
    WellFormedCache f (get_or_compute f st c).2 := by
  unfold get_or_compute
  split
  next v _ => exact hwf
  next =>
    intro d w hlw
    by_cases h : c = d
    · subst h
      simp [lookupEntry] at hlw
      exact hlw.symm
    · simp only [lookupEntry] at hlw
      rw [if_neg h] at hlw
      exact hwf d w hlw

theorem get_or_compute_snd_hit {ρ : Type} [DecidableEq ρ]
    (f : CategoryNode ρ → List (CategoryNode ρ)) {st : ClosureCache ρ}
    {c : CategoryNode ρ} (h : c ∈ cachedKeys st) :
    (get_or_compute f st c).2 = st := by
  unfold get_or_compute
  split
  next v _ => rfl
  next hl => exact absurd ((lookupEntry_eq_none_iff _ _).1 hl) (by simpa [cachedKeys] using h)

theorem get_or_compute_snd_miss {ρ : Type} [DecidableEq ρ]
    (f : CategoryNode ρ → List (CategoryNode ρ)) {st : ClosureCache ρ}
    {c : CategoryNode ρ} (h : c ∉ cachedKeys st) :
    (get_or_compute f st c).2
      = ⟨(c, f c) :: st.entries, st.computations + 1⟩ := by
  unfold get_or_compute
  split
  next v hl =>
    have hn : lookupEntry st.entries c = none := (lookupEntry_eq_none_iff _ _).2 h
    rw [hn] at hl
    simp at hl
  next => rfl

theorem processQueries_wf {ρ : Type} [DecidableEq ρ]
    {f : CategoryNode ρ → List (CategoryNode ρ)} (qs : List (CategoryNode ρ))
    {st : ClosureCache ρ} (hwf : WellFormedCache f st) :
    WellFormedCache f (processQueries f qs st) := by
  induction qs generalizing st with
  | nil => exact hwf
  | cons c qs ih => exact ih (get_or_compute_wf hwf c)

theorem processQueries_computations {ρ : Type} [DecidableEq ρ]
    (f : CategoryNode ρ → List (CategoryNode ρ)) (qs : List (CategoryNode ρ))
    (st : ClosureCache ρ) :
    (processQueries f qs st).computations
      = st.computations + (dedupAux (cachedKeys st) qs).length := by
  induction qs generalizing st with
  | nil => simp [processQueries, dedupAux]
  | cons c qs ih =>
      by_cases h : c ∈ cachedKeys st
      · simp only [processQueries, get_or_compute_snd_hit f h, dedupAux, if_pos h]
        exact ih st
      · simp only [processQueries, get_or_compute_snd_miss f h, dedupAux, if_neg h]
        rw [ih]
        have hkeys :
            cachedKeys (⟨(c, f c) :: st.entries, st.computations + 1⟩ : ClosureCache ρ)
              = c :: cachedKeys st := rfl
        rw [hkeys]
        simp [Nat.add_comm, Nat.add_assoc, Nat.add_left_comm]

theorem zero_call_state_succ (H : ModuleHomspace) (n : Nat) :
    zero_call_state H (n + 1) = some H.zero := by
  induction n with
  | zero => rfl
  | succ n ih =>
      show (zero_cached H (zero_call_state H (n + 1))).2 = some H.zero
      rw [ih]
      rfl

/-! Claim theorems. -/

/-- C1: for every base ring `R`, the declared direct super-categories of
`Modules(R)` form the single-element sequence `[Bimodules(R, R)]`, both
parameters being the node's own base ring handle `R`. -/
theorem modules_super_categories_eq_bimodules {ρ : Type} (R : ρ) :
    Modules.super_categories R = [CategoryNode.Bimodules R R]
      ∧ declared_super_categories (CategoryNode.Modules R)
          = [CategoryNode.Bimodules R R] :=
  ⟨rfl, rfl⟩

/-- C2: for every base ring `R`, the extra-super-category hook of the
Hom-category node of `Modules(R)` contributes `Modules(R)` itself, so the
direct super-categories of the hom node include `Modules(R)` even though its
declared super-categories do not mention it. -/
theorem hom_category_injects_modules {ρ : Type} (R : ρ) :
    HomCategory.extra_super_categories R = [CategoryNode.Modules R]
      ∧ CategoryNode.Modules R
          ∈ direct_super_categories (CategoryNode.HomCategoryOfModules R)
      ∧ CategoryNode.Modules R
          ∉ declared_super_categories (CategoryNode.HomCategoryOfModules R) := by
  refine ⟨rfl, ?_, ?_⟩ <;>
    simp [direct_super_categories, declared_super_categories,
      extra_super_categories, HomCategory.extra_super_categories]

/-- C3: for every Hom-space of modules, the zero operation returns the
morphism sending every element of the domain to the neutral element of the
codomain. -/
theorem hom_zero_sends_all_to_codomain_zero (H : ModuleHomspace) (x : H.Dom) :
    ModuleHomspace.zero H x = H.codomain_zero :=
  rfl

/-- C4: element-level multiplication (and its reflected variant) delegates
to the external binary-operation resolver, passing both operands in order
together with the multiplication symbol, and returns the resolver's result
unchanged, for every resolver — the implementation never inspects the
operands itself. -/
theorem mul_delegates_to_resolver {α : Type} (bin_op : BinOpResolver α)
    (left right : α) :
    ElementMethods.mul bin_op left right = bin_op left right OpSymbol.mul
      ∧ ElementMethods.rmul bin_op right left = bin_op left right OpSymbol.mul :=
  ⟨rfl, rfl⟩

/-- C5: whenever the external resolver finds no common structure for the two
operands, element-level multiplication fails with `NoCommonStructure`,
propagated to the caller untouched (the single resolver invocation's error
is the whole result; nothing is retried). -/
theorem mul_propagates_no_common_structure {α : Type} (bin_op : BinOpResolver α)
    (left right : α)
    (h : bin_op left right OpSymbol.mul
          = Except.error CoercionError.NoCommonStructure) :
    ElementMethods.mul bin_op left right
      = Except.error CoercionError.NoCommonStructure :=
  h

/-- Witness for C5: a resolver that always fails with `NoCommonStructure`
makes multiplication of the natural numbers 0 and 1 fail the same way. -/
theorem mul_propagates_no_common_structure_witness :
    ElementMethods.mul
        (fun (_ _ : Nat) (_ : OpSymbol) =>
          Except.error CoercionError.NoCommonStructure) 0 1
      = Except.error CoercionError.NoCommonStructure :=
  mul_propagates_no_common_structure
    (fun _ _ _ => Except.error CoercionError.NoCommonStructure) 0 1 rfl

/-- C6: for every base ring `R`, the transitive closure of `Modules(R)`
lists `Modules(R)` first, then `Bimodules(R,R)`, then the left-module,
right-module and commutative-additive chain, terminating at the universal
`Objects` root, with no duplicates; moreover every super-category edge
strictly decreases `rank`, so the walked hierarchy has no cycles. -/
theorem modules_all_super_categories_closure {ρ : Type} [DecidableEq ρ] (R : ρ) :
    all_super_categories (CategoryNode.Modules R)
      = [CategoryNode.Modules R, CategoryNode.Bimodules R R,
         CategoryNode.LeftModules R, CategoryNode.RightModules R,
         CategoryNode.CommutativeAdditiveGroups,
         CategoryNode.CommutativeAdditiveMonoids,
         CategoryNode.CommutativeAdditiveSemigroups,
         CategoryNode.Sets, CategoryNode.Objects]
    ∧ (all_super_categories (CategoryNode.Modules R)).Nodup
    ∧ ∀ s ∈ all_super_categories (CategoryNode.Modules R),
        ∀ t ∈ direct_super_categories s, rank t < rank s := by
  have h0 : all_super_categories (CategoryNode.Modules R)
      = dedupAux []
          [CategoryNode.Modules R, CategoryNode.Bimodules R R,
           CategoryNode.Bimodules R R, CategoryNode.LeftModules R,
           CategoryNode.RightModules R, CategoryNode.LeftModules R,
           CategoryNode.CommutativeAdditiveGroups,
           CategoryNode.CommutativeAdditiveGroups,
           CategoryNode.CommutativeAdditiveMonoids,
           CategoryNode.CommutativeAdditiveMonoids,
           CategoryNode.CommutativeAdditiveSemigroups,
           CategoryNode.CommutativeAdditiveSemigroups,
           CategoryNode.Sets, CategoryNode.Sets,
           CategoryNode.Objects, CategoryNode.Objects,
           CategoryNode.RightModules R,
           CategoryNode.CommutativeAdditiveGroups,
           CategoryNode.CommutativeAdditiveGroups,
           CategoryNode.CommutativeAdditiveMonoids,
           CategoryNode.CommutativeAdditiveMonoids,
           CategoryNode.CommutativeAdditiveSemigroups,
           CategoryNode.CommutativeAdditiveSemigroups,
           CategoryNode.Sets, CategoryNode.Sets,
           CategoryNode.Objects, CategoryNode.Objects] := rfl
  have hlist : all_super_categories (CategoryNode.Modules R)
      = [CategoryNode.Modules R, CategoryNode.Bimodules R R,
         CategoryNode.LeftModules R, CategoryNode.RightModules R,
         CategoryNode.CommutativeAdditiveGroups,
         CategoryNode.CommutativeAdditiveMonoids,
         CategoryNode.CommutativeAdditiveSemigroups,
         CategoryNode.Sets, CategoryNode.Objects] := by
    rw [h0]
    simp [dedupAux_cons_not_mem, dedupAux_cons_mem, dedupAux_nil]
  refine ⟨hlist, ?_, ?_⟩
  · rw [hlist]
    simp
  · intro s _ t ht
    exact rank_lt_of_mem_direct ht

/-- Witness for C6: with the trivial base ring handle, the closure of
`Modules(())` is the documented nine-node chain, and the edge from
`Bimodules((),())` to `LeftModules(())` strictly decreases `rank`. -/
theorem modules_all_super_categories_closure_witness :
    all_super_categories (CategoryNode.Modules (() : Unit))
      = [CategoryNode.Modules (), CategoryNode.Bimodules () (),
         CategoryNode.LeftModules (), CategoryNode.RightModules (),
         CategoryNode.CommutativeAdditiveGroups,
         CategoryNode.CommutativeAdditiveMonoids,
         CategoryNode.CommutativeAdditiveSemigroups,
         CategoryNode.Sets, CategoryNode.Objects]
    ∧ rank (CategoryNode.LeftModules (() : Unit))
        < rank (CategoryNode.Bimodules (() : Unit) ()) :=
  ⟨(modules_all_super_categories_closure ()).1,
   (modules_all_super_categories_closure ()).2.2
     (CategoryNode.Bimodules () ()) (by decide)
     (CategoryNode.LeftModules ()) (by decide)⟩

/-- C7: the cached zero operation of a Hom-space is memoized per instance:
starting from a fresh cache, every call observes the same morphism, namely
the zero morphism, and after the first call the cache permanently stores
exactly that morphism. -/
theorem zero_memoized_per_homspace (H : ModuleHomspace) (n : Nat) :
    zero_nth_result H n = H.zero
      ∧ zero_nth_result H n = zero_nth_result H 0
      ∧ zero_call_state H (n + 1) = some H.zero := by
  cases n with
  | zero => exact ⟨rfl, rfl, rfl⟩
  | succ n =>
      have h := zero_call_state_succ H n
      refine ⟨?_, ?_, zero_call_state_succ H (n + 1)⟩
      · show (zero_cached H (zero_call_state H (n + 1))).1 = H.zero
        rw [h]
        rfl
      · show (zero_cached H (zero_call_state H (n + 1))).1
            = (zero_cached H (zero_call_state H 0)).1
        rw [h]
        rfl

/-- C8: the direct super-category computation is memoized per node
identity in the closure cache: after any history of queries starting from
the empty cache, a query on node `c` returns exactly
`direct_super_categories c` (so repeated queries on the same node return
identical sequences), and the number of computations performed equals the
number of distinct node identities queried (so the computation runs at most
once per distinct node identity). -/
theorem super_categories_memoized_at_most_once {ρ : Type} [DecidableEq ρ]
    (qs : List (CategoryNode ρ)) (c : CategoryNode ρ) :
    (get_or_compute direct_super_categories
        (processQueries direct_super_categories qs (emptyCache ρ)) c).1
      = direct_super_categories c
    ∧ (processQueries direct_super_categories qs (emptyCache ρ)).computations
      = (dedupAux [] qs).length := by
  constructor
  · exact get_or_compute_fst (processQueries_wf qs (emptyCache_wf _)) c
  · have h := processQueries_computations direct_super_categories qs (emptyCache ρ)
    simpa [emptyCache, cachedKeys] using h

/-- C9: reflected multiplication preserves the original operand order: the
receiver of the reflected call is the right operand of the original
expression, and the resolver is invoked with the original left operand
first, exactly as the plain multiplication on those operands would do. -/
theorem rmul_preserves_operand_order {α : Type} (bin_op : BinOpResolver α)
    (x y : α) :
    ElementMethods.rmul bin_op x y = bin_op y x OpSymbol.mul
      ∧ ElementMethods.rmul bin_op x y = ElementMethods.mul bin_op y x :=
  ⟨rfl, rfl⟩

/-- C10: for every base ring `R`, the extra-super-category hook of the
End-category node of `Modules(R)` contributes the single node
`Algebras(R)`. -/
theorem end_category_injects_algebras {ρ : Type} (R : ρ) :
    EndCategory.extra_super_categories R = [CategoryNode.Algebras R]
      ∧ extra_super_categories (CategoryNode.EndCategoryOfModules R)
          = [CategoryNode.Algebras R] :=
  ⟨rfl, rfl⟩
